import Mathlib

/-!
Shallow embedding of `src/Qt4Qt5/SciAccessibility.cpp`, QScintilla's
accessibility adapter, together with a model of the Scintilla text-engine
messages the adapter sends.  The engine itself is an external dependency of
the file under verification, so its messages (SCI_*) are modelled from
their documented behaviour; every adapter function is translated directly
from the C++ source.
-/

/-- Scintilla code page constant `SC_CP_UTF8` (65001). -/
def SC_CP_UTF8 : Nat := 65001

/-- Modelled from the spec: one document character as held by the text
engine, described by its Unicode code point and the style the engine
assigns to it (the engine styles every byte of a character uniformly). -/
structure SciChar where
  code : Nat
  style : Nat
  deriving DecidableEq, Repr

/-- Modelled from the spec: the text-engine state the adapter queries over
the send-message protocol: the active code page, the document characters in
order, the cursor byte position (SCI_GETCURRENTPOS) and the selection byte
bounds (SCI_GETSELECTIONSTART / SCI_GETSELECTIONEND). -/
structure SciState where
  codepage : Nat
  chars : List SciChar
  currentPos : Nat
  selStart : Nat
  selEnd : Nat
  deriving DecidableEq, Repr

/-- Modelled from the spec: UTF-8 encoding of one code point, the byte
sequence the engine stores for a character when the code page is
`SC_CP_UTF8`, and the encoding performed by QString::toUtf8. -/
def utf8EncodeChar (c : Nat) : List Nat :=
  if c < 0x80 then [c]
  else if c < 0x800 then [0xC0 + c / 0x40, 0x80 + c % 0x40]
  else if c < 0x10000 then
    [0xE0 + c / 0x1000, 0x80 + c / 0x40 % 0x40, 0x80 + c % 0x40]
  else
    [0xF0 + c / 0x40000, 0x80 + c / 0x1000 % 0x40, 0x80 + c / 0x40 % 0x40,
      0x80 + c % 0x40]

/-- Modelled from the spec: one-byte-at-a-time UTF-8 decoding state
machine: `need` counts the continuation bytes still expected and `acc`
accumulates the code point decoded so far; malformed input produces the
replacement character. -/
def utf8DecodeAux : Nat → Nat → List Nat → List Nat
  | need, _, [] => if need = 0 then [] else [0xFFFD]
  | 0, _, b :: bs =>
    if b < 0x80 then b :: utf8DecodeAux 0 0 bs
    else if b < 0xC0 then 0xFFFD :: utf8DecodeAux 0 0 bs
    else if b < 0xE0 then utf8DecodeAux 1 (b - 0xC0) bs
    else if b < 0xF0 then utf8DecodeAux 2 (b - 0xE0) bs
    else utf8DecodeAux 3 (b - 0xF0) bs
  | need + 1, acc, b :: bs =>
    if need = 0 then (acc * 0x40 + (b - 0x80)) :: utf8DecodeAux 0 0 bs
    else utf8DecodeAux need (acc * 0x40 + (b - 0x80)) bs

/-- Modelled from the spec: UTF-8 decoding of a byte sequence, as performed
by QString::fromUtf8. -/
def utf8Decode (bs : List Nat) : List Nat := utf8DecodeAux 0 0 bs

/-- Translated from `QsciAccessibleScintillaBase::bytesAsText`: decode with
UTF-8 exactly when the engine's code page is `SC_CP_UTF8`, with Latin-1
otherwise (QString::fromLatin1 maps each byte to the same code point). -/
def bytesAsText (st : SciState) (bytes : List Nat) : List Nat :=
  if st.codepage = SC_CP_UTF8 then utf8Decode bytes else bytes

/-- Translated from `QsciAccessibleScintillaBase::textAsBytes`: encode with
UTF-8 exactly when the engine's code page is `SC_CP_UTF8`, with Latin-1
otherwise (QString::toLatin1 replaces code points above 0xFF by the byte
for a question mark, 0x3F). -/
def textAsBytes (st : SciState) (text : List Nat) : List Nat :=
  if st.codepage = SC_CP_UTF8 then text.flatMap utf8EncodeChar
  else text.map (fun c => if c < 0x100 then c else 0x3F)

/-- Modelled from the spec: the byte sequence the engine stores for one
document character under the active code page (Latin-1 stores the code
point as a single byte). -/
def charBytes (st : SciState) (c : SciChar) : List Nat :=
  if st.codepage = SC_CP_UTF8 then utf8EncodeChar c.code else [c.code]

/-- Byte width of one document character under the active code page. -/
def charWidth (st : SciState) (c : SciChar) : Nat := (charBytes st c).length

/-- Byte widths of the document characters in order. -/
def widths (st : SciState) : List Nat := st.chars.map (charWidth st)

/-- Modelled from the spec: SCI_GETTEXTLENGTH, the document length in
bytes. -/
def textLength (st : SciState) : Nat := (widths st).sum

/-- Byte position of the start of document character number `k` (the
document length when `k` is the character count or beyond). -/
def bytePos (st : SciState) (k : Nat) : Nat := ((widths st).take k).sum

/-- Modelled from the spec: the engine's document as a byte sequence. -/
def docBytes (st : SciState) : List Nat := st.chars.flatMap (charBytes st)

/-- Smallest character boundary at or after `pos + 1` in a document with
the given byte widths, or the document length when there is none. -/
def nextBoundary : List Nat → Nat → Nat
  | [], _ => 0
  | w :: ws, pos => if pos < w then w else w + nextBoundary ws (pos - w)

/-- Largest character boundary at or before `pos - 1` in a document with
the given byte widths (0 when `pos` is 0). -/
def prevBoundary : List Nat → Nat → Nat
  | [], _ => 0
  | w :: ws, pos => if pos ≤ w then 0 else w + prevBoundary ws (pos - w)

/-- Modelled from the spec: SCI_POSITIONAFTER, the next character boundary
after the given byte position, clamped to the document length. -/
def positionAfter (st : SciState) (pos : Nat) : Nat :=
  nextBoundary (widths st) pos

/-- Modelled from the spec: SCI_POSITIONBEFORE, the previous character
boundary before the given byte position, clamped to 0. -/
def positionBefore (st : SciState) (pos : Nat) : Nat :=
  prevBoundary (widths st) pos

/-- Style of the byte at a position, walking the character list; 0 past the
end of the document. -/
def styleWalk (st : SciState) : List SciChar → Nat → Nat
  | [], _ => 0
  | c :: cs, pos =>
    if pos < charWidth st c then c.style else styleWalk st cs (pos - charWidth st c)

/-- Modelled from the spec: SCI_GETSTYLEAT, the style of the byte at the
given position (0 outside the document). -/
def styleAtPos (st : SciState) (pos : Nat) : Nat := styleWalk st st.chars pos

/-- Modelled from the spec: SCI_POSITIONRELATIVE with first argument 0: the
byte position reached by walking `rel` whole characters forward from byte
position 0, or 0 when the walk leaves the document (Scintilla reports
INVALID_POSITION, which the message handler clamps to 0). -/
def positionRelativeFromZero (st : SciState) (rel : Int) : Nat :=
  if 0 ≤ rel ∧ rel ≤ (st.chars.length : Int) then bytePos st rel.toNat else 0

/-- Translated from `QsciAccessibleScintillaBase::positionAsTextPosition`:
the function sends SCI_POSITIONRELATIVE with arguments 0 and `position`. -/
def positionAsTextPosition (st : SciState) (position : Int) : Nat :=
  positionRelativeFromZero st position

/-- Byte position reached after `n` SCI_POSITIONAFTER steps starting from
byte position 0: the loop of `textPositionAsPosition`. -/
def iterAfter (st : SciState) : Nat → Nat
  | 0 => 0
  | n + 1 => positionAfter st (iterAfter st n)

/-- Translated from `QsciAccessibleScintillaBase::textPositionAsPosition`:
starting from byte position 0, send SCI_POSITIONAFTER once per text
position; the loop body does not run at all for a non-positive argument. -/
def textPositionAsPosition (st : SciState) (textPosition : Int) : Nat :=
  iterAfter st textPosition.toNat

/-- Translated from `QsciAccessibleScintillaBase::characterCount`: the text
position of the byte position SCI_GETTEXTLENGTH. -/
def characterCount (st : SciState) : Nat :=
  positionAsTextPosition st (textLength st)

/-- Per-object adapter state: the data members of
QsciAccessibleScintillaBase. -/
structure AccState where
  current_cursor_position : Int
  is_selection : Bool
  deriving DecidableEq, Repr

/-- Translated from the constructor: current_cursor_position starts at -1
and is_selection at false. -/
def initAcc : AccState := ⟨-1, false⟩

/-- Translated from `QsciAccessibleScintillaBase::cursorPosition`: return
the cached member. -/
def cursorPosition (a : AccState) : Int := a.current_cursor_position

/-- Accessibility notifications the adapter can emit through
QAccessible::updateAccessibility. -/
inductive AccEvent where
  | textCursorMoved (textPosition : Int)
  deriving DecidableEq, Repr

/-- Translated from `QsciAccessibleScintillaBase::updated`, the part acting
on the found accessible: reconvert the engine cursor position and, when it
differs from the cached value, store it and emit a cursor event. -/
def updatedStep (a : AccState) (st : SciState) : AccState × List AccEvent :=
  let cursor_position : Int := (positionAsTextPosition st (st.currentPos : Int) : Int)
  if a.current_cursor_position ≠ cursor_position then
    ({ a with current_cursor_position := cursor_position },
      [AccEvent.textCursorMoved cursor_position])
  else (a, [])

/-- Entry of the static all_accessibles list: a widget identity together
with the adapter registered for it. -/
structure Adapter where
  widget : Nat
  acc : AccState
  deriving DecidableEq, Repr

/-- Translated from `QsciAccessibleScintillaBase::findAccessible`: the
first entry of all_accessibles whose widget is `sb`, if any. -/
def findAccessible : List Adapter → Nat → Option Adapter
  | [], _ => none
  | a :: rest, sb => if a.widget = sb then some a else findAccessible rest sb

/-- Translated from `QsciAccessibleScintillaBase::selectionChanged`: set
is_selection on the accessible found for the widget, if any; the function
emits no accessibility event. -/
def selectionChangedMod : List Adapter → Nat → Bool → List Adapter × List AccEvent
  | [], _, _ => ([], [])
  | a :: rest, sb, sel =>
    if a.widget = sb then
      (⟨a.widget, { a.acc with is_selection := sel }⟩ :: rest, [])
    else
      let r := selectionChangedMod rest sb sel
      (a :: r.1, r.2)

/-- Translated from `QsciAccessibleScintillaBase::updated`: find the
accessible for the widget (returning with no effect when there is none) and
run the cursor update on it, collecting the events it emits. -/
def updatedMod : List Adapter → Nat → SciState → List Adapter × List AccEvent
  | [], _, _ => ([], [])
  | a :: rest, sb, st =>
    if a.widget = sb then
      let r := updatedStep a.acc st
      (⟨a.widget, r.1⟩ :: rest, r.2)
    else
      let r := updatedMod rest sb st
      (a :: r.1, r.2)

/-- Translated from `QsciAccessibleScintillaBase::selection`: when the
index is 0 and a selection exists, convert the engine's selection bounds,
otherwise report 0 for both offsets. -/
def selection (a : AccState) (st : SciState) (selectionIndex : Int) : Int × Int :=
  if selectionIndex = 0 ∧ a.is_selection then
    ((positionAsTextPosition st (st.selStart : Int) : Int),
      (positionAsTextPosition st (st.selEnd : Int) : Int))
  else (0, 0)

/-- Translated from `QsciAccessibleScintillaBase::selectionCount`. -/
def selectionCount (a : AccState) : Int := if a.is_selection then 1 else 0

/-- Modelled from the spec: SCI_GETTEXTRANGE copies the bytes of the
half-open byte range between the two positions. -/
def getTextRange (st : SciState) (byte_start byte_end : Nat) : List Nat :=
  ((docBytes st).drop byte_start).take (byte_end - byte_start)

/-- Translated from `QsciAccessibleScintillaBase::text`: convert both text
positions to byte positions, fetch the byte range from the engine and
decode it under the active code page. -/
def text (st : SciState) (startOffset endOffset : Int) : List Nat :=
  let byte_start := textPositionAsPosition st startOffset
  let byte_end := textPositionAsPosition st endOffset
  bytesAsText st (getTextRange st byte_start byte_end)

/-- Translated from `QsciAccessibleScintillaBase::offsetAtPoint`: map the
point through the viewport, ask the engine for the position at the point,
and either convert it or report -1 for a negative answer.  The viewport
mapping and SCI_POSITIONFROMPOINT are external queries passed as oracles. -/
def offsetAtPoint (st : SciState) (posFromPoint : Int → Int → Int)
    (mapFromGlobal : Int × Int → Int × Int) (point : Int × Int) : Int :=
  let p := mapFromGlobal point
  let position := posFromPoint p.1 p.2
  if 0 ≤ position then (positionAsTextPosition st position : Int) else -1

/-- Static initialisation state: the needs_initialising flag together with
a count of how many times QAccessible::installFactory has been called. -/
structure InitState where
  needs_initialising : Bool
  factory_installs : Nat
  deriving DecidableEq, Repr

/-- Translated from `QsciAccessibleScintillaBase::initialise`: install the
factory and clear the flag when it is set, otherwise do nothing. -/
def initialise (s : InitState) : InitState :=
  if s.needs_initialising then ⟨false, s.factory_installs + 1⟩ else s

/-- Initial static state: needs_initialising is statically initialised to
true and no factory has been installed. -/
def initInitState : InitState := ⟨true, 0⟩

/-- Translated from the backward while loop of
`QsciAccessibleScintillaBase::attributes`: while the position is positive
and the style before it matches, step to the previous character boundary
and decrement the text position.  The loop strictly decreases the byte
position, so an explicit iteration bound of the starting byte position is
enough; `attributes` passes exactly that. -/
def attrScanBackF (st : SciState) (style : Nat) :
    Nat → Nat → Int → Nat × Int
  | 0, start_position, start_text_position => (start_position, start_text_position)
  | fuel + 1, start_position, start_text_position =>
    if 0 < start_position then
      let before := positionBefore st start_position
      if styleAtPos st before ≠ style then (start_position, start_text_position)
      else attrScanBackF st style fuel before (start_text_position - 1)
    else (start_position, start_text_position)

/-- Translated from the forward while loop of
`QsciAccessibleScintillaBase::attributes`: while the position is below the
document length and its style matches, step to the next character boundary
and increment the text position.  The loop strictly increases the byte
position while below the document length, so an explicit iteration bound of
the document length is enough; `attributes` passes exactly that. -/
def attrScanFwdF (st : SciState) (style : Nat) (last_position : Nat) :
    Nat → Nat → Int → Nat × Int
  | 0, end_position, end_text_position => (end_position, end_text_position)
  | fuel + 1, end_position, end_text_position =>
    if end_position < last_position then
      if styleAtPos st end_position ≠ style then (end_position, end_text_position)
      else attrScanFwdF st style last_position fuel
        (positionAfter st end_position) (end_text_position + 1)
    else (end_position, end_text_position)

/-- Translated from `QsciAccessibleScintillaBase::attributes`, the part
computing *startOffset and *endOffset (the attribute string itself is built
from external font and colour queries and is not modelled): find the byte
position and style of the character at `offset`, then scan backward and
forward for the ends of the run of that style. -/
def attributes (st : SciState) (offset : Int) : Int × Int :=
  let position := textPositionAsPosition st offset
  let style := styleAtPos st position
  let back := attrScanBackF st style position position offset
  let last_position := textLength st
  let fwd := attrScanFwdF st style last_position last_position
    (positionAfter st position) (offset + 1)
  (back.2, fwd.2)

/-- Style of the document character at text position `k` (0 past the
end). -/
def charStyle (st : SciState) (k : Nat) : Nat :=
  (st.chars.map SciChar.style).getD k 0

/-- Reachable per-adapter states: freshly constructed, or reached from a
reachable state by a selectionChanged or updated notification (textInserted
and textDeleted do not touch the adapter state). -/
inductive AccReach : AccState → Prop where
  | init : AccReach initAcc
  | selChanged (a : AccState) (sel : Bool) (h : AccReach a) :
      AccReach { a with is_selection := sel }
  | updated (a : AccState) (st : SciState) (h : AccReach a) :
      AccReach (updatedStep a st).1

/-- Number of characters actually in the document (the model-level truth,
as opposed to the adapter's `characterCount`). -/
def charCount (st : SciState) : Nat := st.chars.length

/-- Index-level view of the backward style scan: the first text position of
the maximal run of characters with the given style ending at `k`. -/
def backStart (styles : List Nat) (sty : Nat) : Nat → Nat
  | 0 => 0
  | k + 1 => if styles.getD k 0 ≠ sty then k + 1 else backStart styles sty k

/-- Index-level view of the forward style scan: the first text position at
or after `k` whose character breaks the run of the given style, stopping at
the character count `n`. -/
def fwdEnd (styles : List Nat) (sty : Nat) (n : Nat) (k : Nat) : Nat :=
  if k < n then
    (if styles.getD k 0 ≠ sty then k else fwdEnd styles sty n (k + 1))
  else k
termination_by n - k
decreasing_by omega

/-- Representability of a client string in the active encoding: every code
point is a Unicode scalar value for UTF-8, and fits one byte for
Latin-1. -/
def representable (st : SciState) (text : List Nat) : Prop :=
  ∀ c ∈ text,
    if st.codepage = SC_CP_UTF8 then
      c < 0x110000 ∧ (c < 0xD800 ∨ 0xE000 ≤ c)
    else c < 0x100

/-- Well-formed document: every stored character is representable in the
active encoding (a Latin-1 document holds single-byte code points). -/
def wfDoc (st : SciState) : Prop :=
  ∀ c ∈ st.chars,
    if st.codepage = SC_CP_UTF8 then
      c.code < 0x110000 ∧ (c.code < 0xD800 ∨ 0xE000 ≤ c.code)
    else c.code < 0x100

/-- Example document: UTF-8 code page with the single two-byte character
U+00E9. -/
def docU1 : SciState := ⟨SC_CP_UTF8, [⟨0xE9, 0⟩], 0, 0, 0⟩

/-- Example document: Latin-1 code page with five one-byte characters whose
styles form the runs 5 5 7 7 5, and a selection on bytes 1 to 2. -/
def docA5 : SciState :=
  ⟨0, [⟨0x61, 5⟩, ⟨0x62, 5⟩, ⟨0x63, 7⟩, ⟨0x64, 7⟩, ⟨0x65, 5⟩], 0, 1, 2⟩

/-- Example document: UTF-8 code page with characters of byte widths 1, 2,
3 and 1. -/
def docU4 : SciState :=
  ⟨SC_CP_UTF8, [⟨0x61, 1⟩, ⟨0xE9, 1⟩, ⟨0x4000, 2⟩, ⟨0x62, 2⟩], 0, 1, 3⟩

theorem utf8EncodeChar_length_pos (c : Nat) : 1 ≤ (utf8EncodeChar c).length := by
  unfold utf8EncodeChar
  split_ifs <;> simp

theorem charWidth_pos (st : SciState) (c : SciChar) : 1 ≤ charWidth st c := by
  unfold charWidth charBytes
  split_ifs
  · exact utf8EncodeChar_length_pos _
  · simp

theorem widths_pos (st : SciState) : ∀ w ∈ widths st, 1 ≤ w := by
  intro w hw
  unfold widths at hw
  obtain ⟨c, _, rfl⟩ := List.mem_map.mp hw
  exact charWidth_pos st c

theorem widths_length (st : SciState) : (widths st).length = charCount st := by
  simp [widths, charCount]

theorem bytePos_zero (st : SciState) : bytePos st 0 = 0 := by
  simp [bytePos]

theorem bytePos_succ (st : SciState) (k : Nat) (h : k < charCount st) :
    bytePos st (k + 1) = bytePos st k + (widths st).getD k 0 := by
  have hk : k < (widths st).length := by rw [widths_length]; exact h
  unfold bytePos
  rw [List.take_succ, List.sum_append]
  congr 1
  rw [List.getD_eq_getElem?_getD, List.getElem?_eq_getElem hk]
  simp

theorem getD_widths_pos (st : SciState) (k : Nat) (h : k < charCount st) :
    1 ≤ (widths st).getD k 0 := by
  have hk : k < (widths st).length := by rw [widths_length]; exact h
  rw [List.getD_eq_getElem?_getD, List.getElem?_eq_getElem hk]
  exact widths_pos st _ (List.getElem_mem hk)

theorem bytePos_lt_succ (st : SciState) (k : Nat) (h : k < charCount st) :
    bytePos st k < bytePos st (k + 1) := by
  rw [bytePos_succ st k h]
  have := getD_widths_pos st k h
  omega

theorem bytePos_mono (st : SciState) {k m : Nat} (h : k ≤ m) :
    bytePos st k ≤ bytePos st m := by
  unfold bytePos
  exact List.Sublist.sum_le_sum (List.take_sublist_take_left _ h)
    (by intro w hw; exact Nat.zero_le w)

theorem bytePos_strictMono (st : SciState) {k m : Nat} (h : k < m)
    (hm : k < charCount st) : bytePos st k < bytePos st m := by
  have h1 : bytePos st (k + 1) ≤ bytePos st m := bytePos_mono st h
  have h2 := bytePos_lt_succ st k hm
  omega

theorem bytePos_of_ge (st : SciState) {k : Nat} (h : charCount st ≤ k) :
    bytePos st k = textLength st := by
  unfold bytePos textLength
  rw [List.take_of_length_le (by rw [widths_length]; exact h)]

theorem bytePos_le_textLength (st : SciState) (k : Nat) :
    bytePos st k ≤ textLength st := by
  by_cases h : charCount st ≤ k
  · rw [bytePos_of_ge st h]
  · push_neg at h
    calc bytePos st k ≤ bytePos st (charCount st) := bytePos_mono st (le_of_lt h)
    _ = textLength st := bytePos_of_ge st (le_refl _)

theorem bytePos_lt_textLength (st : SciState) {k : Nat} (h : k < charCount st) :
    bytePos st k < textLength st := by
  have := bytePos_strictMono st h h
  have h2 := bytePos_of_ge st (le_refl (charCount st))
  calc bytePos st k < bytePos st (charCount st) := bytePos_strictMono st h h
  _ = textLength st := h2

theorem le_bytePos_self (st : SciState) (k : Nat) (h : k ≤ charCount st) :
    k ≤ bytePos st k := by
  induction k with
  | zero => simp
  | succ k ih =>
    have hk : k < charCount st := by omega
    have := bytePos_lt_succ st k hk
    have := ih (by omega)
    omega

theorem charCount_le_textLength (st : SciState) :
    charCount st ≤ textLength st := by
  have := le_bytePos_self st (charCount st) (le_refl _)
  have h2 := bytePos_of_ge st (le_refl (charCount st))
  omega

theorem nextBoundary_of_ge (ws : List Nat) (pos : Nat) (h : ws.sum ≤ pos) :
    nextBoundary ws pos = ws.sum := by
  induction ws generalizing pos with
  | nil => simp [nextBoundary]
  | cons w ws ih =>
    simp only [List.sum_cons] at h
    have hw : ¬ pos < w := by omega
    simp only [nextBoundary, if_neg hw, List.sum_cons]
    rw [ih (pos - w) (by omega)]

theorem nextBoundary_take (ws : List Nat) (hw : ∀ w ∈ ws, 1 ≤ w) (k : Nat)
    (hk : k < ws.length) :
    nextBoundary ws ((ws.take k).sum) = (ws.take (k + 1)).sum := by
  induction ws generalizing k with
  | nil => simp at hk
  | cons w ws ih =>
    cases k with
    | zero =>
      have h1 : 0 < w := hw w (List.mem_cons_self _ _)
      simp [nextBoundary, h1]
    | succ k =>
      have hk' : k < ws.length := by simpa using hk
      have hwks : ∀ w' ∈ ws, 1 ≤ w' := fun w' h' => hw w' (List.mem_cons_of_mem _ h')
      have hnot : ¬ (w + (ws.take k).sum < w) := by omega
      simp only [List.take_succ_cons, List.sum_cons, nextBoundary, if_neg hnot]
      have harith : w + (ws.take k).sum - w = (ws.take k).sum := by omega
      rw [harith, ih hwks k hk']

theorem prevBoundary_take (ws : List Nat) (hw : ∀ w ∈ ws, 1 ≤ w) (k : Nat)
    (hk : k < ws.length) :
    prevBoundary ws ((ws.take (k + 1)).sum) = (ws.take k).sum := by
  induction ws generalizing k with
  | nil => simp at hk
  | cons w ws ih =>
    cases k with
    | zero => simp [prevBoundary]
    | succ k =>
      have hk' : k < ws.length := by simpa using hk
      have hwks : ∀ w' ∈ ws, 1 ≤ w' := fun w' h' => hw w' (List.mem_cons_of_mem _ h')
      have hpos : 1 ≤ (ws.take (k + 1)).sum := by
        have hlen : (ws.take (k + 1)).length = k + 1 := by
          rw [List.length_take]; omega
        have hsum := List.length_le_sum_of_one_le (ws.take (k + 1))
          (fun i hi => hwks i (List.mem_of_mem_take hi))
        omega
      have hnot : ¬ (w + (ws.take (k + 1)).sum ≤ w) := by omega
      simp only [List.take_succ_cons, List.sum_cons, prevBoundary, if_neg hnot]
      have harith : w + (ws.take (k + 1)).sum - w = (ws.take (k + 1)).sum := by omega
      rw [harith, ih hwks k hk']

theorem prevBoundary_lt (ws : List Nat) (pos : Nat) (h : 0 < pos) :
    prevBoundary ws pos < pos := by
  induction ws generalizing pos with
  | nil => simpa [prevBoundary] using h
  | cons w ws ih =>
    by_cases hp : pos ≤ w
    · simpa [prevBoundary, hp] using h
    · push_neg at hp
      have := ih (pos - w) (by omega)
      simp only [prevBoundary, if_neg (by omega : ¬ pos ≤ w)]
      omega

theorem positionAfter_bytePos (st : SciState) (k : Nat) (h : k < charCount st) :
    positionAfter st (bytePos st k) = bytePos st (k + 1) := by
  unfold positionAfter bytePos
  exact nextBoundary_take (widths st) (widths_pos st) k (by rw [widths_length]; exact h)

theorem positionAfter_textLength (st : SciState) (pos : Nat)
    (h : textLength st ≤ pos) : positionAfter st pos = textLength st := by
  unfold positionAfter textLength
  exact nextBoundary_of_ge _ _ h

theorem positionBefore_bytePos (st : SciState) (k : Nat) (h : k < charCount st) :
    positionBefore st (bytePos st (k + 1)) = bytePos st k := by
  unfold positionBefore bytePos
  exact prevBoundary_take (widths st) (widths_pos st) k (by rw [widths_length]; exact h)

theorem positionBefore_lt (st : SciState) (pos : Nat) (h : 0 < pos) :
    positionBefore st pos < pos := prevBoundary_lt _ _ h

theorem iterAfter_eq (st : SciState) (t : Nat) :
    iterAfter st t = bytePos st (min t (charCount st)) := by
  induction t with
  | zero => simp [iterAfter, bytePos]
  | succ t ih =>
    have hstep : iterAfter st (t + 1) = positionAfter st (iterAfter st t) := rfl
    rw [hstep, ih]
    by_cases h : t < charCount st
    · rw [Nat.min_eq_left (Nat.le_of_lt h), positionAfter_bytePos st t h,
        Nat.min_eq_left h]
    · push_neg at h
      rw [Nat.min_eq_right h, Nat.min_eq_right (by omega)]
      rw [bytePos_of_ge st (le_refl _), positionAfter_textLength st _ (le_refl _)]

theorem textPositionAsPosition_eq (st : SciState) (t : Int) :
    textPositionAsPosition st t = bytePos st (min t.toNat (charCount st)) :=
  iterAfter_eq st t.toNat

theorem textPositionAsPosition_nat (st : SciState) (k : Nat)
    (h : k ≤ charCount st) :
    textPositionAsPosition st (k : Int) = bytePos st k := by
  rw [textPositionAsPosition_eq]
  simp only [Int.toNat_natCast]
  rw [Nat.min_eq_left h]

theorem characterCount_eq (st : SciState) :
    characterCount st = if textLength st = charCount st then charCount st else 0 := by
  have hle := charCount_le_textLength st
  have hc : charCount st = st.chars.length := rfl
  by_cases h : textLength st = charCount st
  · rw [if_pos h]
    show positionRelativeFromZero st (textLength st : Int) = charCount st
    rw [positionRelativeFromZero, if_pos (by constructor <;> omega)]
    simp only [Int.toNat_natCast]
    rw [h, bytePos_of_ge st (le_refl _), h]
  · rw [if_neg h]
    show positionRelativeFromZero st (textLength st : Int) = 0
    rw [positionRelativeFromZero, if_neg (by
      intro hcon
      obtain ⟨h1, h2⟩ := hcon
      omega)]

theorem characterCount_le (st : SciState) : characterCount st ≤ charCount st := by
  rw [characterCount_eq]; split_ifs <;> omega

theorem styleWalk_take (st : SciState) (l : List SciChar) (k : Nat)
    (hk : k < l.length) :
    styleWalk st l (((l.map (charWidth st)).take k).sum) =
      (l.map SciChar.style).getD k 0 := by
  induction l generalizing k with
  | nil => simp at hk
  | cons c cs ih =>
    cases k with
    | zero =>
      have h1 : 0 < charWidth st c := charWidth_pos st c
      simp [styleWalk, h1]
    | succ k =>
      have hk' : k < cs.length := by simpa using hk
      have hnot : ¬ (charWidth st c + ((cs.map (charWidth st)).take k).sum <
          charWidth st c) := by omega
      simp only [List.map_cons, List.take_succ_cons, List.sum_cons, styleWalk,
        if_neg hnot]
      have harith : charWidth st c + ((cs.map (charWidth st)).take k).sum -
          charWidth st c = ((cs.map (charWidth st)).take k).sum := by omega
      rw [harith, ih k hk']
      simp

theorem styleAtPos_bytePos (st : SciState) (k : Nat) (h : k < charCount st) :
    styleAtPos st (bytePos st k) = charStyle st k := by
  unfold styleAtPos bytePos widths charStyle
  exact styleWalk_take st st.chars k h

theorem utf8Decode_cons1 (b : Nat) (bs : List Nat) (h : b < 0x80) :
    utf8Decode (b :: bs) = b :: utf8Decode bs := by
  simp only [utf8Decode, utf8DecodeAux, if_pos h]

theorem utf8Decode_cons2 (b b1 : Nat) (bs : List Nat) (h1 : 0xC0 ≤ b)
    (h2 : b < 0xE0) :
    utf8Decode (b :: b1 :: bs) =
      ((b - 0xC0) * 0x40 + (b1 - 0x80)) :: utf8Decode bs := by
  have n1 : ¬ b < 0x80 := by omega
  have n2 : ¬ b < 0xC0 := by omega
  simp [utf8Decode, utf8DecodeAux, n1, n2, h2]

theorem utf8Decode_cons3 (b b1 b2 : Nat) (bs : List Nat) (h1 : 0xE0 ≤ b)
    (h2 : b < 0xF0) :
    utf8Decode (b :: b1 :: b2 :: bs) =
      ((b - 0xE0) * 0x1000 + (b1 - 0x80) * 0x40 + (b2 - 0x80)) ::
        utf8Decode bs := by
  have n1 : ¬ b < 0x80 := by omega
  have n2 : ¬ b < 0xC0 := by omega
  have n3 : ¬ b < 0xE0 := by omega
  simp [utf8Decode, utf8DecodeAux, n1, n2, n3, h2]
  ring_nf

theorem utf8Decode_cons4 (b b1 b2 b3 : Nat) (bs : List Nat) (h1 : 0xF0 ≤ b) :
    utf8Decode (b :: b1 :: b2 :: b3 :: bs) =
      ((b - 0xF0) * 0x40000 + (b1 - 0x80) * 0x1000 + (b2 - 0x80) * 0x40 +
        (b3 - 0x80)) :: utf8Decode bs := by
  have n1 : ¬ b < 0x80 := by omega
  have n2 : ¬ b < 0xC0 := by omega
  have n3 : ¬ b < 0xE0 := by omega
  have n4 : ¬ b < 0xF0 := by omega
  simp [utf8Decode, utf8DecodeAux, n1, n2, n3, n4]
  ring_nf

theorem utf8Decode_encodeChar (c : Nat) (h : c < 0x110000) (rest : List Nat) :
    utf8Decode (utf8EncodeChar c ++ rest) = c :: utf8Decode rest := by
  unfold utf8EncodeChar
  by_cases h1 : c < 0x80
  · rw [if_pos h1]
    simp only [List.cons_append, List.nil_append]
    exact utf8Decode_cons1 c rest h1
  · rw [if_neg h1]
    by_cases h2 : c < 0x800
    · rw [if_pos h2]
      simp only [List.cons_append, List.nil_append]
      rw [utf8Decode_cons2 _ _ _ (by omega) (by omega)]
      have hv : (0xC0 + c / 0x40 - 0xC0) * 0x40 + (0x80 + c % 0x40 - 0x80) =
          c := by omega
      rw [hv]
    · rw [if_neg h2]
      by_cases h3 : c < 0x10000
      · rw [if_pos h3]
        simp only [List.cons_append, List.nil_append]
        rw [utf8Decode_cons3 _ _ _ _ (by omega) (by omega)]
        have hv : (0xE0 + c / 0x1000 - 0xE0) * 0x1000 +
            (0x80 + c / 0x40 % 0x40 - 0x80) * 0x40 +
            (0x80 + c % 0x40 - 0x80) = c := by omega
        rw [hv]
      · rw [if_neg h3]
        simp only [List.cons_append, List.nil_append]
        rw [utf8Decode_cons4 _ _ _ _ _ (by omega)]
        have hv : (0xF0 + c / 0x40000 - 0xF0) * 0x40000 +
            (0x80 + c / 0x1000 % 0x40 - 0x80) * 0x1000 +
            (0x80 + c / 0x40 % 0x40 - 0x80) * 0x40 +
            (0x80 + c % 0x40 - 0x80) = c := by omega
        rw [hv]

theorem utf8Decode_flatMap (l : List Nat) (h : ∀ c ∈ l, c < 0x110000) :
    utf8Decode (l.flatMap utf8EncodeChar) = l := by
  induction l with
  | nil => rfl
  | cons c cs ih =>
    rw [List.flatMap_cons,
      utf8Decode_encodeChar c (h c (List.mem_cons_self _ _)) _,
      ih (fun x hx => h x (List.mem_cons_of_mem _ hx))]

theorem flatMap_drop_width {α : Type} (f : α → List Nat) (l : List α) (k : Nat) :
    (l.flatMap f).drop (((l.map fun a => (f a).length).take k).sum) =
      (l.drop k).flatMap f := by
  induction l generalizing k with
  | nil => simp
  | cons a l ih =>
    cases k with
    | zero => simp
    | succ k =>
      simp only [List.map_cons, List.take_succ_cons, List.sum_cons,
        List.flatMap_cons, List.drop_succ_cons]
      rw [List.drop_append, ih]

theorem flatMap_take_width {α : Type} (f : α → List Nat) (l : List α) (k : Nat) :
    (l.flatMap f).take (((l.map fun a => (f a).length).take k).sum) =
      (l.take k).flatMap f := by
  induction l generalizing k with
  | nil => simp
  | cons a l ih =>
    cases k with
    | zero => simp
    | succ k =>
      simp only [List.map_cons, List.take_succ_cons, List.sum_cons,
        List.flatMap_cons]
      rw [List.take_append, ih]

theorem widths_eq_map_length (st : SciState) :
    widths st = st.chars.map fun a => (charBytes st a).length := rfl

theorem bytePos_sub_eq (st : SciState) (s e : Nat) (hse : s ≤ e) :
    bytePos st e - bytePos st s = (((widths st).drop s).take (e - s)).sum := by
  have he : e = s + (e - s) := by omega
  have : bytePos st e = bytePos st s + (((widths st).drop s).take (e - s)).sum := by
    unfold bytePos
    rw [he, List.take_add, List.sum_append, Nat.add_sub_cancel_left]
  omega

theorem getTextRange_chars (st : SciState) (s e : Nat) (hse : s ≤ e) :
    getTextRange st (bytePos st s) (bytePos st e) =
      ((st.chars.drop s).take (e - s)).flatMap (charBytes st) := by
  unfold getTextRange docBytes
  have hdrop : (st.chars.flatMap (charBytes st)).drop (bytePos st s) =
      (st.chars.drop s).flatMap (charBytes st) :=
    flatMap_drop_width (charBytes st) st.chars s
  rw [hdrop, bytePos_sub_eq st s e hse]
  have hmd : (widths st).drop s = (st.chars.drop s).map fun a =>
      (charBytes st a).length := by
    rw [widths_eq_map_length]
    exact (List.map_drop _ _ _).symm
  rw [hmd]
  exact flatMap_take_width (charBytes st) (st.chars.drop s) (e - s)

theorem bytesAsText_flatMap (st : SciState) (l : List SciChar)
    (h : ∀ c ∈ l, if st.codepage = SC_CP_UTF8 then
      c.code < 0x110000 ∧ (c.code < 0xD800 ∨ 0xE000 ≤ c.code)
      else c.code < 0x100) :
    bytesAsText st (l.flatMap (charBytes st)) = l.map SciChar.code := by
  unfold bytesAsText charBytes
  by_cases hcp : st.codepage = SC_CP_UTF8
  · simp only [if_pos hcp]
    have hmap : l.flatMap (fun c => utf8EncodeChar c.code) =
        (l.map SciChar.code).flatMap utf8EncodeChar :=
      (List.flatMap_map SciChar.code utf8EncodeChar l).symm
    rw [hmap, utf8Decode_flatMap]
    intro c hc
    obtain ⟨x, hx, rfl⟩ := List.mem_map.mp hc
    have hx2 := h x hx
    rw [if_pos hcp] at hx2
    exact hx2.1
  · simp only [if_neg hcp]
    exact (List.map_eq_flatMap SciChar.code l).symm

theorem backStart_le (styles : List Nat) (sty : Nat) (k : Nat) :
    backStart styles sty k ≤ k := by
  induction k with
  | zero => exact le_refl _
  | succ k ih =>
    rw [backStart]
    split_ifs with h
    · exact le_refl _
    · omega

theorem backStart_run (styles : List Nat) (sty : Nat) (k : Nat)
    (hk : styles.getD k 0 = sty) :
    ∀ i, backStart styles sty k ≤ i → i ≤ k → styles.getD i 0 = sty := by
  induction k with
  | zero =>
    intro i h1 h2
    have hi : i = 0 := by omega
    subst hi
    exact hk
  | succ k ih =>
    intro i h1 h2
    by_cases hs : styles.getD k 0 = sty
    · rw [backStart, if_neg (not_not_intro hs)] at h1
      by_cases hik : i ≤ k
      · exact ih hs i h1 hik
      · have hi : i = k + 1 := by omega
        subst hi
        exact hk
    · rw [backStart, if_pos hs] at h1
      have hi : i = k + 1 := by omega
      subst hi
      exact hk

theorem backStart_maximal (styles : List Nat) (sty : Nat) (k : Nat) :
    backStart styles sty k = 0 ∨
      styles.getD (backStart styles sty k - 1) 0 ≠ sty := by
  induction k with
  | zero => exact Or.inl rfl
  | succ k ih =>
    by_cases hs : styles.getD k 0 = sty
    · rw [backStart, if_neg (not_not_intro hs)]
      exact ih
    · rw [backStart, if_pos hs]
      right
      simpa using hs

theorem fwdEnd_stop (styles : List Nat) (sty : Nat) (n k : Nat) (h : ¬ k < n) :
    fwdEnd styles sty n k = k := by
  rw [fwdEnd, if_neg h]

theorem fwdEnd_step_ne (styles : List Nat) (sty : Nat) (n k : Nat)
    (h : k < n) (hs : styles.getD k 0 ≠ sty) :
    fwdEnd styles sty n k = k := by
  rw [fwdEnd, if_pos h, if_pos hs]

theorem fwdEnd_step_eq (styles : List Nat) (sty : Nat) (n k : Nat)
    (h : k < n) (hs : styles.getD k 0 = sty) :
    fwdEnd styles sty n k = fwdEnd styles sty n (k + 1) := by
  rw [fwdEnd, if_pos h, if_neg (not_not_intro hs)]

theorem fwdEnd_bounds (styles : List Nat) (sty : Nat) (n : Nat) :
    ∀ m k, n - k ≤ m → k ≤ n →
      k ≤ fwdEnd styles sty n k ∧ fwdEnd styles sty n k ≤ n := by
  intro m
  induction m with
  | zero =>
    intro k h1 h2
    have hk : k = n := by omega
    subst hk
    rw [fwdEnd_stop _ _ _ _ (lt_irrefl _)]
    exact ⟨le_refl _, le_refl _⟩
  | succ m ih =>
    intro k h1 h2
    by_cases hkn : k < n
    · by_cases hs : styles.getD k 0 = sty
      · rw [fwdEnd_step_eq _ _ _ _ hkn hs]
        have := ih (k + 1) (by omega) (by omega)
        omega
      · rw [fwdEnd_step_ne _ _ _ _ hkn hs]
        omega
    · rw [fwdEnd_stop _ _ _ _ hkn]
      omega

theorem fwdEnd_run (styles : List Nat) (sty : Nat) (n : Nat) :
    ∀ m k, n - k ≤ m →
      ∀ i, k ≤ i → i < fwdEnd styles sty n k → styles.getD i 0 = sty := by
  intro m
  induction m with
  | zero =>
    intro k h1 i hi1 hi2
    have hkn : ¬ k < n := by omega
    rw [fwdEnd_stop _ _ _ _ hkn] at hi2
    omega
  | succ m ih =>
    intro k h1 i hi1 hi2
    by_cases hkn : k < n
    · by_cases hs : styles.getD k 0 = sty
      · rw [fwdEnd_step_eq _ _ _ _ hkn hs] at hi2
        by_cases hik : k = i
        · rw [← hik]
          exact hs
        · exact ih (k + 1) (by omega) i (by omega) hi2
      · rw [fwdEnd_step_ne _ _ _ _ hkn hs] at hi2
        omega
    · rw [fwdEnd_stop _ _ _ _ hkn] at hi2
      omega

theorem fwdEnd_maximal (styles : List Nat) (sty : Nat) (n : Nat) :
    ∀ m k, n - k ≤ m → k ≤ n →
      fwdEnd styles sty n k = n ∨
        styles.getD (fwdEnd styles sty n k) 0 ≠ sty := by
  intro m
  induction m with
  | zero =>
    intro k h1 h2
    have hk : k = n := by omega
    subst hk
    rw [fwdEnd_stop _ _ _ _ (lt_irrefl _)]
    exact Or.inl rfl
  | succ m ih =>
    intro k h1 h2
    by_cases hkn : k < n
    · by_cases hs : styles.getD k 0 = sty
      · rw [fwdEnd_step_eq _ _ _ _ hkn hs]
        exact ih (k + 1) (by omega) (by omega)
      · rw [fwdEnd_step_ne _ _ _ _ hkn hs]
        exact Or.inr hs
    · rw [fwdEnd_stop _ _ _ _ hkn]
      exact Or.inl (by omega)

theorem attrScanBackF_eq (st : SciState) (sty : Nat) :
    ∀ (f k : Nat), k ≤ charCount st → k ≤ f →
      attrScanBackF st sty f (bytePos st k) (k : Int) =
        (bytePos st (backStart (st.chars.map SciChar.style) sty k),
          (backStart (st.chars.map SciChar.style) sty k : Int)) := by
  intro f k
  induction k generalizing f with
  | zero =>
    intro _ _
    cases f with
    | zero => simp [attrScanBackF, backStart, bytePos_zero]
    | succ f => simp [attrScanBackF, backStart, bytePos_zero]
  | succ k ih =>
    intro hcc hf
    cases f with
    | zero => omega
    | succ f =>
      have hkcc : k < charCount st := by omega
      have hpos : 0 < bytePos st (k + 1) :=
        Nat.lt_of_lt_of_le (Nat.succ_pos k) (le_bytePos_self st (k + 1) hcc)
      simp only [attrScanBackF]
      rw [if_pos hpos, positionBefore_bytePos st k hkcc,
        styleAtPos_bytePos st k hkcc]
      by_cases hs : (st.chars.map SciChar.style).getD k 0 = sty
      · have hs' : charStyle st k = sty := hs
        rw [if_neg (not_not_intro hs')]
        have hcast : ((k + 1 : Nat) : Int) - 1 = (k : Int) := by push_cast; ring
        rw [hcast, ih f (le_of_lt hkcc) (by omega)]
        rw [backStart, if_neg (not_not_intro hs)]
      · have hs' : charStyle st k ≠ sty := hs
        rw [if_pos hs']
        rw [backStart, if_pos hs]

theorem attrScanFwdF_eq (st : SciState) (sty : Nat) :
    ∀ (m k : Nat), charCount st - k ≤ m → k ≤ charCount st →
      attrScanFwdF st sty (textLength st) m (bytePos st k) (k : Int) =
        (bytePos st (fwdEnd (st.chars.map SciChar.style) sty (charCount st) k),
          (fwdEnd (st.chars.map SciChar.style) sty (charCount st) k : Int)) := by
  intro m
  induction m with
  | zero =>
    intro k h1 h2
    have hk : k = charCount st := by omega
    subst hk
    rw [fwdEnd_stop _ _ _ _ (lt_irrefl _)]
    rfl
  | succ m ih =>
    intro k h1 h2
    by_cases hkc : k < charCount st
    · have hlt : bytePos st k < textLength st := bytePos_lt_textLength st hkc
      have hs0 : styleAtPos st (bytePos st k) = charStyle st k :=
        styleAtPos_bytePos st k hkc
      simp only [attrScanFwdF]
      rw [if_pos hlt, hs0]
      by_cases hs : (st.chars.map SciChar.style).getD k 0 = sty
      · have hs' : charStyle st k = sty := hs
        rw [if_neg (not_not_intro hs'), positionAfter_bytePos st k hkc]
        have hcast : (k : Int) + 1 = ((k + 1 : Nat) : Int) := by push_cast; ring
        rw [hcast, ih (k + 1) (by omega) (by omega)]
        rw [fwdEnd_step_eq _ _ _ _ hkc hs]
      · have hs' : charStyle st k ≠ sty := hs
        rw [if_pos hs']
        rw [fwdEnd_step_ne _ _ _ _ hkc hs]
    · have hk : k = charCount st := by omega
      subst hk
      have hlen : bytePos st (charCount st) = textLength st :=
        bytePos_of_ge st (le_refl _)
      simp only [attrScanFwdF]
      rw [if_neg (by rw [hlen]; exact lt_irrefl _),
        fwdEnd_stop _ _ _ _ (lt_irrefl _)]

theorem attributes_eq (st : SciState) (offset : Int) (h0 : 0 ≤ offset)
    (hlt : offset.toNat < charCount st) :
    attributes st offset =
      ((backStart (st.chars.map SciChar.style) (charStyle st offset.toNat)
          offset.toNat : Int),
        (fwdEnd (st.chars.map SciChar.style) (charStyle st offset.toNat)
          (charCount st) (offset.toNat + 1) : Int)) := by
  set o := offset.toNat with ho
  have hoff : offset = (o : Int) := by omega
  have hpos : textPositionAsPosition st offset = bytePos st o := by
    rw [textPositionAsPosition_eq, ← ho, Nat.min_eq_left (le_of_lt hlt)]
  have hsty : styleAtPos st (bytePos st o) = charStyle st o :=
    styleAtPos_bytePos st o hlt
  simp only [attributes]
  rw [hpos, hsty, positionAfter_bytePos st o hlt, hoff]
  rw [attrScanBackF_eq st (charStyle st o) (bytePos st o) o (le_of_lt hlt)
    (le_bytePos_self st o (le_of_lt hlt))]
  have hcast : ((o : Int) + 1) = ((o + 1 : Nat) : Int) := by push_cast; ring
  rw [hcast]
  rw [attrScanFwdF_eq st (charStyle st o) (textLength st) (o + 1)
    (by have := charCount_le_textLength st; omega) hlt]

/-- C1: evaluation at the failing input.  For the UTF-8 document holding
the single two-byte character U+00E9, byte position 2 is a character
boundary equal to the text length, yet the round trip
textPositionAsPosition(positionAsTextPosition(2)) returns 0, not 2:
positionAsTextPosition sends SCI_POSITIONRELATIVE(0, p), which converts a
character count to a byte position, the same direction as
textPositionAsPosition, instead of converting bytes to characters as its
own comment states. -/
theorem C1_round_trip_fails :
    textLength docU1 = 2 ∧ charCount docU1 = 1 ∧
    positionAsTextPosition docU1 2 = 0 ∧
    textPositionAsPosition docU1
      ((positionAsTextPosition docU1 2 : Nat) : Int) = 0 ∧
    positionAsTextPosition docU1
      ((textPositionAsPosition docU1 1 : Nat) : Int) = 0 := by
  decide

/-- C8: text position 0 always maps to byte position 0: for every document
state and every non-positive text position, textPositionAsPosition returns
0 because its conversion loop does not run at all. -/
theorem C8_textPositionAsPosition_nonpos (st : SciState) (textPosition : Int)
    (h : textPosition ≤ 0) : textPositionAsPosition st textPosition = 0 := by
  unfold textPositionAsPosition
  have ht : textPosition.toNat = 0 := by omega
  rw [ht]
  rfl

/-- C8 witness: a negative text position on a concrete document. -/
theorem C8_witness :
    (-5 : Int) ≤ 0 ∧ textPositionAsPosition docU1 (-5) = 0 :=
  ⟨by decide, C8_textPositionAsPosition_nonpos docU1 (-5) (by decide)⟩

/-- C9: initialise is idempotent: starting from the initial static state,
any positive number of initialise calls installs the factory exactly once
and clears needs_initialising, and once the flag is clear initialise leaves
the state unchanged. -/
theorem C9_initialise_idempotent :
    (∀ n : Nat, 1 ≤ n →
      Nat.iterate initialise n initInitState = ⟨false, 1⟩) ∧
    (∀ s : InitState, s.needs_initialising = false → initialise s = s) := by
  constructor
  · intro n hn
    induction n with
    | zero => omega
    | succ n ih =>
      cases n with
      | zero => rfl
      | succ n =>
        rw [Function.iterate_succ_apply', ih (by omega)]
        rfl
  · intro s hs
    unfold initialise
    rw [hs]
    rfl

/-- C9 witness: three initialise calls from the initial state install the
factory once, and a further call on the resulting state does nothing. -/
theorem C9_witness :
    1 ≤ 3 ∧ Nat.iterate initialise 3 initInitState = ⟨false, 1⟩ ∧
      initialise ⟨false, 1⟩ = ⟨false, 1⟩ :=
  ⟨by decide, C9_initialise_idempotent.1 3 (by decide),
    C9_initialise_idempotent.2 ⟨false, 1⟩ rfl⟩

/-- C10: event notifications for an unregistered widget are no-ops: when
findAccessible reports no adapter for the widget, selectionChanged and
updated leave the adapter list unchanged and emit no accessibility
event. -/
theorem C10_unregistered_noop (l : List Adapter) (sb : Nat) (sel : Bool)
    (st : SciState) (h : findAccessible l sb = none) :
    selectionChangedMod l sb sel = (l, []) ∧ updatedMod l sb st = (l, []) := by
  induction l with
  | nil => exact ⟨rfl, rfl⟩
  | cons a rest ih =>
    rw [findAccessible] at h
    by_cases hw : a.widget = sb
    · rw [if_pos hw] at h
      exact absurd h (by simp)
    · rw [if_neg hw] at h
      obtain ⟨h1, h2⟩ := ih h
      constructor
      · rw [selectionChangedMod, if_neg hw, h1]
      · rw [updatedMod, if_neg hw, h2]

/-- C10 witness: a concrete list registering only widget 7 ignores
notifications for widget 5. -/
theorem C10_witness :
    findAccessible [⟨7, initAcc⟩] 5 = none ∧
      selectionChangedMod [⟨7, initAcc⟩] 5 true = ([⟨7, initAcc⟩], []) ∧
      updatedMod [⟨7, initAcc⟩] 5 docU1 = ([⟨7, initAcc⟩], []) :=
  ⟨by decide, (C10_unregistered_noop [⟨7, initAcc⟩] 5 true docU1 (by decide)).1,
    (C10_unregistered_noop [⟨7, initAcc⟩] 5 true docU1 (by decide)).2⟩

/-- C4 counterexample: the freshly constructed adapter state is reachable,
yet cursorPosition() returns the sentinel -1 while the engine's cursor byte
position 0 converts to text position 0, so cursorPosition() does not equal
the converted engine cursor in every reachable state. -/
theorem C4_counterexample :
    AccReach initAcc ∧ cursorPosition initAcc = -1 ∧
      (positionAsTextPosition docU1 ((docU1.currentPos : Nat) : Int) : Int) = 0 ∧
      cursorPosition initAcc ≠
        (positionAsTextPosition docU1 ((docU1.currentPos : Nat) : Int) : Int) :=
  ⟨AccReach.init, by decide, by decide, by decide⟩

/-- C4 amended: cursorPosition returns the adapter's cached cursor
position: it is the sentinel -1 immediately after construction, and
immediately after an updated notification it equals the engine's
SCI_GETCURRENTPOS converted via positionAsTextPosition; between
notifications the cached value can lag the engine. -/
theorem C4_cursorPosition_cached (a : AccState) (st : SciState) :
    cursorPosition initAcc = -1 ∧
      cursorPosition (updatedStep a st).1 =
        (positionAsTextPosition st (st.currentPos : Int) : Int) := by
  constructor
  · rfl
  · simp only [updatedStep, cursorPosition]
    split_ifs with h
    · rfl
    · exact not_not.mp h

/-- C6: offsetAtPoint returns -1 exactly when the engine reports a negative
position for the viewport-mapped point, and otherwise returns that byte
position converted via positionAsTextPosition. -/
theorem C6_offsetAtPoint (st : SciState) (posFromPoint : Int → Int → Int)
    (mapFromGlobal : Int × Int → Int × Int) (point : Int × Int) :
    (offsetAtPoint st posFromPoint mapFromGlobal point = -1 ↔
      posFromPoint (mapFromGlobal point).1 (mapFromGlobal point).2 < 0) ∧
    (0 ≤ posFromPoint (mapFromGlobal point).1 (mapFromGlobal point).2 →
      offsetAtPoint st posFromPoint mapFromGlobal point =
        (positionAsTextPosition st
          (posFromPoint (mapFromGlobal point).1 (mapFromGlobal point).2) : Int)) := by
  unfold offsetAtPoint
  constructor
  · constructor
    · intro h
      by_contra hneg
      push_neg at hneg
      rw [if_pos hneg] at h
      omega
    · intro h
      rw [if_neg (by omega)]
  · intro h
    rw [if_pos h]

/-- C6 witness: with an engine reporting position 3 at the point, the
conversion branch is taken. -/
theorem C6_witness :
    0 ≤ ((fun _ _ => (3 : Int)) ((fun p => p) ((10 : Int), (20 : Int))).1
        ((fun p => p) ((10 : Int), (20 : Int))).2) ∧
      offsetAtPoint docA5 (fun _ _ => 3) (fun p => p) (10, 20) =
        (positionAsTextPosition docA5 3 : Int) :=
  ⟨by decide,
    (C6_offsetAtPoint docA5 (fun _ _ => 3) (fun p => p) (10, 20)).2 (by decide)⟩

/-- C7: the single-selection model: selectionCount is 1 precisely when a
selection exists and 0 otherwise; selection index 0 reports the engine's
selection bounds converted via positionAsTextPosition when a selection
exists; every other index, and every index when no selection exists,
reports 0 for both offsets. -/
theorem C7_selection_single (a : AccState) (st : SciState) :
    (a.is_selection = true → selectionCount a = 1) ∧
    (a.is_selection = false → selectionCount a = 0) ∧
    (a.is_selection = true →
      selection a st 0 =
        ((positionAsTextPosition st (st.selStart : Int) : Int),
          (positionAsTextPosition st (st.selEnd : Int) : Int))) ∧
    (∀ i : Int, i ≠ 0 → selection a st i = (0, 0)) ∧
    (a.is_selection = false → ∀ i : Int, selection a st i = (0, 0)) := by
  refine ⟨?_, ?_, ?_, ?_, ?_⟩
  · intro h
    unfold selectionCount
    rw [h]
    rfl
  · intro h
    unfold selectionCount
    rw [h]
    rfl
  · intro h
    unfold selection
    rw [if_pos ⟨rfl, h⟩]
  · intro i hi
    unfold selection
    rw [if_neg (by intro hcon; exact hi hcon.1)]
  · intro h i
    unfold selection
    rw [if_neg (by intro hcon; simp [h] at hcon)]

/-- C7 witness: a concrete adapter with a selection over a concrete engine
state, and a non-zero index reporting zeros. -/
theorem C7_witness :
    ((⟨-1, true⟩ : AccState).is_selection = true) ∧
      selectionCount ⟨-1, true⟩ = 1 ∧
      selection ⟨-1, true⟩ docA5 0 =
        ((positionAsTextPosition docA5 (docA5.selStart : Int) : Int),
          (positionAsTextPosition docA5 (docA5.selEnd : Int) : Int)) ∧
      selection ⟨-1, true⟩ docA5 5 = (0, 0) :=
  ⟨rfl, (C7_selection_single ⟨-1, true⟩ docA5).1 rfl,
    (C7_selection_single ⟨-1, true⟩ docA5).2.2.1 rfl,
    (C7_selection_single ⟨-1, true⟩ docA5).2.2.2.1 5 (by decide)⟩

/-- C3: the byte/text conversion is encoding-aware and round-trips:
bytesAsText decodes with UTF-8 exactly when the engine's code page is
SC_CP_UTF8 and with Latin-1 (the identity on byte values) otherwise,
textAsBytes encodes under the same rule, and encoding then decoding any
string representable in the active encoding gives the string back. -/
theorem C3_encoding_round_trip (st : SciState) (txt bytes : List Nat)
    (hrep : representable st txt) :
    (st.codepage = SC_CP_UTF8 → bytesAsText st bytes = utf8Decode bytes) ∧
    (st.codepage ≠ SC_CP_UTF8 → bytesAsText st bytes = bytes) ∧
    (st.codepage = SC_CP_UTF8 →
      textAsBytes st txt = txt.flatMap utf8EncodeChar) ∧
    (st.codepage ≠ SC_CP_UTF8 →
      textAsBytes st txt = txt.map (fun c => if c < 0x100 then c else 0x3F)) ∧
    bytesAsText st (textAsBytes st txt) = txt := by
  refine ⟨?_, ?_, ?_, ?_, ?_⟩
  · intro h
    unfold bytesAsText
    rw [if_pos h]
  · intro h
    unfold bytesAsText
    rw [if_neg h]
  · intro h
    unfold textAsBytes
    rw [if_pos h]
  · intro h
    unfold textAsBytes
    rw [if_neg h]
  · unfold bytesAsText textAsBytes
    by_cases h : st.codepage = SC_CP_UTF8
    · rw [if_pos h, if_pos h]
      apply utf8Decode_flatMap
      intro c hc
      have h2 := hrep c hc
      rw [if_pos h] at h2
      exact h2.1
    · rw [if_neg h, if_neg h]
      have hmap : ∀ c ∈ txt, (if c < 0x100 then c else 0x3F) = id c := by
        intro c hc
        have h2 := hrep c hc
        rw [if_neg h] at h2
        rw [if_pos h2]
        rfl
      rw [List.map_congr_left hmap, List.map_id]

/-- C3 witness: a representable three-character string round-trips on a
concrete UTF-8 widget state. -/
theorem C3_witness :
    representable docU4 [0x61, 0x1F600, 0x7FF] ∧
      bytesAsText docU4 (textAsBytes docU4 [0x61, 0x1F600, 0x7FF]) =
        [0x61, 0x1F600, 0x7FF] :=
  ⟨by unfold representable; decide,
    (C3_encoding_round_trip docU4 [0x61, 0x1F600, 0x7FF] []
      (by unfold representable; decide)).2.2.2.2⟩

/-- C5: the text-range query is exact: for a well-formed document and text
positions startOffset ≤ endOffset within the document, text returns
precisely the document's code points in the half-open range between them,
and the text of an empty range is always empty. -/
theorem C5_text_exact (st : SciState) (s e : Int) (hwf : wfDoc st)
    (h0 : 0 ≤ s) (hse : s ≤ e) (he : e ≤ (charCount st : Int)) :
    text st s e =
      (((st.chars.map SciChar.code).drop s.toNat).take (e.toNat - s.toNat)) ∧
    (∀ t : Int, text st t t = []) := by
  constructor
  · have hns : s.toNat ≤ e.toNat := by omega
    have hne : e.toNat ≤ charCount st := by omega
    have hbs : textPositionAsPosition st s = bytePos st s.toNat := by
      rw [textPositionAsPosition_eq, Nat.min_eq_left (by omega)]
    have hbe : textPositionAsPosition st e = bytePos st e.toNat := by
      rw [textPositionAsPosition_eq, Nat.min_eq_left hne]
    simp only [text]
    rw [hbs, hbe, getTextRange_chars st s.toNat e.toNat hns]
    rw [bytesAsText_flatMap st ((st.chars.drop s.toNat).take (e.toNat - s.toNat))
      (fun c hc => hwf c (List.mem_of_mem_drop (List.mem_of_mem_take hc)))]
    rw [List.map_take, List.map_drop]
  · intro t
    simp only [text, getTextRange]
    rw [Nat.sub_self, List.take_zero]
    unfold bytesAsText
    split_ifs <;> rfl

/-- C5 witness: on the concrete UTF-8 document, the range of text positions
1 to 3 returns exactly the second and third characters. -/
theorem C5_witness :
    wfDoc docU4 ∧ 0 ≤ (1 : Int) ∧ (1 : Int) ≤ 3 ∧
      (3 : Int) ≤ (charCount docU4 : Int) ∧
      text docU4 1 3 = [0xE9, 0x4000] := by
  have h := (C5_text_exact docU4 1 3 (by unfold wfDoc; decide) (by decide)
    (by decide) (by decide)).1
  refine ⟨by unfold wfDoc; decide, by decide, by decide, by decide, ?_⟩
  rw [h]
  decide

/-- C2: the style-run attribute scanner finds the maximal style run: for
every document state and every character text position below
characterCount, the computed startOffset and endOffset satisfy
startOffset ≤ offset < endOffset, every character with a text position in
the half-open run has the style of the character at offset, and the run is
maximal: the start is 0 or the previous character is styled differently,
and the end's byte position reaches the document's text length or the
character at the end is styled differently. -/
theorem C2_attributes_maximal_run (st : SciState) (offset : Int)
    (h0 : 0 ≤ offset) (hcc : offset < (characterCount st : Int)) :
    (attributes st offset).1 ≤ offset ∧
    offset < (attributes st offset).2 ∧
    (∀ t : Int, (attributes st offset).1 ≤ t → t < (attributes st offset).2 →
      charStyle st t.toNat = charStyle st offset.toNat) ∧
    ((attributes st offset).1 = 0 ∨
      charStyle st ((attributes st offset).1 - 1).toNat ≠
        charStyle st offset.toNat) ∧
    (textPositionAsPosition st (attributes st offset).2 = textLength st ∨
      charStyle st (attributes st offset).2.toNat ≠
        charStyle st offset.toNat) := by
  have hccle := characterCount_le st
  have hlt : offset.toNat < charCount st := by omega
  rw [attributes_eq st offset h0 hlt]
  dsimp only
  set o := offset.toNat with ho
  set styles := st.chars.map SciChar.style with hstyles
  set sty := charStyle st o with hsty
  have hgd : styles.getD o 0 = sty := rfl
  have hm := backStart_le styles sty o
  have hfe := fwdEnd_bounds styles sty (charCount st) (charCount st) (o + 1)
    (by omega) (by omega)
  refine ⟨by omega, by omega, ?_, ?_, ?_⟩
  · intro t h1 h2
    by_cases hto : t.toNat ≤ o
    · exact backStart_run styles sty o hgd t.toNat (by omega) hto
    · push_neg at hto
      exact fwdEnd_run styles sty (charCount st) (charCount st) (o + 1)
        (by omega) t.toNat (by omega) (by omega)
  · rcases backStart_maximal styles sty o with h | h
    · exact Or.inl (by omega)
    · right
      have harg : (((backStart styles sty o : Nat) : Int) - 1).toNat =
          backStart styles sty o - 1 := by omega
      rw [harg]
      exact h
  · rcases fwdEnd_maximal styles sty (charCount st) (charCount st) (o + 1)
      (by omega) (by omega) with h | h
    · left
      rw [h, textPositionAsPosition_nat st (charCount st) (le_refl _)]
      exact bytePos_of_ge st (le_refl _)
    · right
      rw [Int.toNat_natCast]
      exact h

/-- C2 witness: on the concrete Latin-1 document with style runs 5 5 7 7 5,
the scanner hypotheses hold at offset 2 and the computed run brackets the
offset. -/
theorem C2_witness :
    0 ≤ (2 : Int) ∧ (2 : Int) < (characterCount docA5 : Int) ∧
      (attributes docA5 2).1 ≤ 2 ∧ (2 : Int) < (attributes docA5 2).2 :=
  ⟨by decide, by decide,
    (C2_attributes_maximal_run docA5 2 (by decide) (by decide)).1,
    (C2_attributes_maximal_run docA5 2 (by decide) (by decide)).2.1⟩
